import Mathlib

/-!
Verification of the expense-tracker plugin's line-filtering and
ledger-aggregation logic.

The development shallowly embeds the two source components:

* the Line Extractor (`ExpenseTracker.filterMarkdown` in `src/main.ts`,
  final variant, regex shape with an optional run of leading whitespace),
  and
* the Journal Aggregator (`Ledger` in `src/ledger.ts`: `parseFiles`,
  `isTransactionResult`, `flush`, `add`, `export`).

Strings are modelled as `List Char`.  A markdown file is split on the
newline character, exactly as `markdown.split('\n')` does, so the lines
the extractor inspects never contain a `'\n'`.  The JavaScript regular
expression character classes are modelled as follows: the whitespace
class covers the common whitespace characters (space, tab, newline,
carriage return, vertical tab, form feed, no-break space); the word
class is `[A-Za-z0-9_]`; the regex engine's single-line behaviour is
used for each extracted line (the match anchors are the ends of the
line).  JavaScript `Date` values are modelled by `Option Int`: `some t`
is a valid timestamp and `none` is an Invalid Date, whose `NaN`
timestamp makes every `<=` / `>=` comparison evaluate to false.  The
external `costflow.parse` call and the `Date` string parser are
collaborators outside this repository and are taken as function
parameters.
-/

set_option maxRecDepth 8000

/-- Strings are embedded as lists of characters. -/
abbrev Str := List Char

/-- Model of the JavaScript whitespace class used both by the regex
`\s` atom and by `String.prototype.trim`: space, tab, newline, carriage
return, vertical tab, form feed and no-break space. -/
def jsSpace (c : Char) : Bool :=
  c = ' ' || c = '\t' || c = '\n' || c = '\r' ||
  c = Char.ofNat 11 || c = Char.ofNat 12 || c = Char.ofNat 160

/-- Model of the JavaScript word-character class `\w` = `[A-Za-z0-9_]`,
used by the word-boundary assertion `\b`. -/
def isWordChar (c : Char) : Bool :=
  c.isAlphanum || c = '_'

/-- Splitting a string on the newline character, as
`markdown.split('\n')` does: the result is always nonempty and the
lines contain no newline. -/
def splitLines : Str → List Str
  | [] => [[]]
  | c :: rest =>
    let r := splitLines rest
    if c = '\n' then [] :: r
    else
      match r with
      | h :: t => (c :: h) :: t
      | [] => [[c]]

/-- Matching the regex fragment `\d{4}-\d{2}-\d{2}` at the front of a
line suffix, returning the remainder after the date token
(from the regex in `ExpenseTracker.filterMarkdown`). -/
def matchDate : Str → Option Str
  | y1 :: y2 :: y3 :: y4 :: h1 :: m1 :: m2 :: h2 :: d1 :: d2 :: rest =>
    if y1.isDigit && y2.isDigit && y3.isDigit && y4.isDigit &&
       h1 = '-' && m1.isDigit && m2.isDigit && h2 = '-' &&
       d1.isDigit && d2.isDigit then some rest else none
  | _ => none

/-- Whether a delimiter character occurs somewhere in a line suffix
(the `.*(>).*$` tail of the extractor's regex). -/
def hasGt : Str → Bool
  | [] => false
  | c :: cs => c = '>' || hasGt cs

/-- Model of one test of the extractor's regex
`^\s*[-*]\s(\d{4}-\d{2}-\d{2}).*(>).*$` against a single line
(`ExpenseTracker.filterMarkdown`, `src/main.ts`): optional leading
whitespace, a list marker, one whitespace character, a date token, and
a delimiter somewhere in the rest of the line. -/
def lineMatches (l : Str) : Bool :=
  match l.dropWhile jsSpace with
  | m :: s :: rest =>
    (m = '-' || m = '*') && jsSpace s &&
      (match matchDate rest with
       | some r => hasGt r
       | none => false)
  | _ => false

/-- Removing trailing whitespace, the right half of
`String.prototype.trim`. -/
def trimRight : Str → Str
  | [] => []
  | c :: cs =>
    if trimRight cs = [] ∧ jsSpace c = true then [] else c :: trimRight cs

/-- Model of `String.prototype.trim`: strip leading and trailing
whitespace. -/
def trimChars (l : Str) : Str :=
  trimRight (l.dropWhile jsSpace)

/-- Model of the `line.replace` call on the anchored single-hyphen
regex: remove a single leading hyphen when present. -/
def stripDash : Str → Str
  | [] => []
  | c :: cs => if c = '-' then cs else c :: cs

/-- The cleanup the extractor applies to a matching line: trim, then
remove a leading hyphen, then trim again. -/
def cleanLine (l : Str) : Str :=
  trimChars (stripDash (trimChars l))

/-- The extractor's push loop over the split lines: a matching line
contributes its cleaned form, all other lines are dropped
(`ExpenseTracker.filterMarkdown`). -/
def filterMarkdownLoop : List Str → List Str
  | [] => []
  | l :: ls =>
    if lineMatches l then cleanLine l :: filterMarkdownLoop ls
    else filterMarkdownLoop ls

/-- Model of `ExpenseTracker.filterMarkdown`: split the markdown text
on newlines, keep the regex-matching lines, cleaned. -/
def filterMarkdown (md : Str) : List Str :=
  filterMarkdownLoop (splitLines md)

/-- The spec's candidate shape for a date token: the literal shape
`YYYY-MM-DD`, four digits, a hyphen, two digits, a hyphen, two
digits. -/
def DateToken (d : Str) : Prop :=
  ∃ y1 y2 y3 y4 o1 o2 e1 e2,
    d = [y1, y2, y3, y4, '-', o1, o2, '-', e1, e2] ∧
    y1.isDigit = true ∧ y2.isDigit = true ∧ y3.isDigit = true ∧
    y4.isDigit = true ∧ o1.isDigit = true ∧ o2.isDigit = true ∧
    e1.isDigit = true ∧ e2.isDigit = true

/-- The spec's candidate-line shape: after stripping leading
whitespace, the line starts with a list marker followed by a
whitespace character and a `YYYY-MM-DD` date token, and contains a
delimiter after that point. -/
def CandidateShape (l : Str) : Prop :=
  ∃ m s d r,
    l.dropWhile jsSpace = m :: s :: (d ++ r) ∧
    (m = '-' ∨ m = '*') ∧ jsSpace s = true ∧ DateToken d ∧ '>' ∈ r

/-- Matching a literal pattern at the front of a string: `some r` when
the string is the pattern followed by `r`. -/
def matchPre : Str → Str → Option Str
  | [], l => some l
  | _ :: _, [] => none
  | p :: ps, c :: cs => if c = p then matchPre ps cs else none

/-- Model of one global regex replacement from `Ledger.parseFiles`
(`src/ledger.ts`): the regex is a word boundary, the alias key and a
colon, the replacement is the full account path and a colon.  The scan
walks the line left to right carrying whether the previous character
was a word character; at a position whose previous character is not a
word character (the word boundary, for a key made of word characters)
and where `key:` occurs literally, the occurrence is replaced and the
scan resumes after it.  Replaced text is not rescanned, matching the
single-pass semantics of `String.prototype.replace` with a global
regex.  The model is faithful for a nonempty key of word characters
and a replacement value without a dollar character. -/
def replaceAlias (key val : Str) (prevW : Bool) (l : Str) : Str :=
  match l with
  | [] => []
  | c :: cs =>
    if prevW then c :: replaceAlias key val (isWordChar c) cs
    else if (matchPre (key ++ [':']) (c :: cs)).isSome then
      val ++ ':' :: replaceAlias key val false (cs.drop key.length)
    else c :: replaceAlias key val (isWordChar c) cs
termination_by l.length
decreasing_by
  · simp only [List.length_cons]; omega
  · simp only [List.length_drop, List.length_cons]; omega
  · simp only [List.length_cons]; omega

/-- The leftmost word-boundary occurrence of `key:` in a line, as the
specification describes the substitution: `some (a, b)` splits the
line as `a`, then `key:`, then `b`, at the first position whose
previous character (the last of `a`, or the incoming boundary state
for `a = []`) is not a word character. -/
def firstOccAux (key : Str) (prevW : Bool) : Str → Option (Str × Str)
  | [] => none
  | c :: cs =>
    if prevW then
      (firstOccAux key (isWordChar c) cs).map (fun p => (c :: p.1, p.2))
    else
      match matchPre (key ++ [':']) (c :: cs) with
      | some rest => some ([], rest)
      | none => (firstOccAux key (isWordChar c) cs).map (fun p => (c :: p.1, p.2))

/-- Whether the character before a scan position is a word character:
`a` is the text already scanned and `pw` the state at its start. -/
def lastIsWord : Str → Bool → Bool
  | [], pw => pw
  | c :: cs, _ => lastIsWord cs (isWordChar c)

/-- A word-boundary occurrence of `key:` in `l` splitting it as
`a ++ key ++ ':' :: b`: the character before the occurrence is not a
word character. -/
def OccAt (key : Str) (pw : Bool) (l a b : Str) : Prop :=
  l = a ++ key ++ ':' :: b ∧ lastIsWord a pw = false

/-- The account-alias substitution loop of `Ledger.parseFiles`: the
keys are folded over the working line in mapping order, each applying
its global replacement to the result of the previous one. -/
def applyAliases (accounts : List (Str × Str)) (line : Str) : Str :=
  accounts.foldl (fun acc kv => replaceAlias kv.1 kv.2 false acc) line

/-- One leg of a transaction, as in the `Transaction` interface of
`src/ledger.ts`: an account path and a signed amount. -/
structure Transaction where
  account : Str
  amount : Int
deriving DecidableEq

/-- The shape of a `costflow.parse` result relevant to the aggregator:
the duck-typed `links` attribute is optional (`none` models a result
on which `links` is undefined, i.e. a generic or error-value result),
the other attributes are those `Ledger.add` reads. -/
structure RawResult where
  date : Str
  payee : Str
  narration : Str
  tags : List Str
  links : Option (List Str)
  output : Str
  data : List Transaction
deriving DecidableEq

/-- A journal entry, as in the `JournalEntry` interface of
`src/ledger.ts`.  The date is the JavaScript `Date` built from the
result's date string, modelled as `Option Int`: `none` is an Invalid
Date (`NaN` timestamp). -/
structure JournalEntry where
  date : Option Int
  payee : Str
  transactions : List Transaction
  narration : Str
  tags : List Str
  links : List Str
  beancount : Str
deriving DecidableEq

/-- Model of `Ledger.isTransactionResult`: the duck-typed check that
the `links` attribute is defined. -/
def isTransactionResult (r : RawResult) : Bool :=
  r.links.isSome

/-- The journal entry `Ledger.add` builds from an accepted result:
every attribute is copied, the transactions are pushed one by one from
the result's `data` list, and the date string is handed to the
external `Date` parser `dateParse`. -/
def mkJournalEntry (dateParse : Str → Option Int) (r : RawResult) : JournalEntry :=
  { beancount := r.output
    transactions := r.data.map (fun item => { account := item.account, amount := item.amount })
    date := dateParse r.date
    links := r.links.getD []
    narration := r.narration
    payee := r.payee
    tags := r.tags }

/-- Model of `Ledger.add`: push the built entry onto the journal. -/
def addEntry (dateParse : Str → Option Int) (j : List JournalEntry) (r : RawResult) :
    List JournalEntry :=
  j ++ [mkJournalEntry dateParse r]

/-- Model of `Ledger.flush`: replace the journal with the empty
list. -/
def flushJournal (_j : List JournalEntry) : List JournalEntry :=
  []

/-- JavaScript `<=` on two `Date` values: numeric comparison of the
timestamps, false whenever either side is an Invalid Date (`NaN`). -/
def dateLe : Option Int → Option Int → Bool
  | some a, some b => decide (a ≤ b)
  | _, _ => false

/-- Model of `Ledger.export` (`src/ledger.ts`): walk the journal in
stored order and append the rendered text of each entry in the
inclusive date range, followed by two newlines, to the output
string. -/
def exportEntries (j : List JournalEntry) (startDate endDate : Option Int) : Str :=
  j.foldl (fun acc entry =>
    if dateLe startDate entry.date && dateLe entry.date endDate
    then acc ++ entry.beancount ++ ['\n', '\n'] else acc) []

/-- The `export` method as a state transformer on the journal: the
method body only reads the entries while building its output
string. -/
def exportMethod (j : List JournalEntry) (startDate endDate : Option Int) :
    List JournalEntry × Str :=
  j.foldl (fun acc entry =>
    (acc.1, if dateLe startDate entry.date && dateLe entry.date endDate
            then acc.2 ++ entry.beancount ++ ['\n', '\n'] else acc.2)) (j, [])

/-- The spec's inclusive date-range test for an entry: the entry is
dated and its date lies between the two bounds, both ends
included. -/
def inRangeIncl (s e : Int) (entry : JournalEntry) : Bool :=
  match entry.date with
  | some d => decide (s ≤ d ∧ d ≤ e)
  | none => false

/-- Model of `Ledger.parseFiles` over a list of candidate lines: each
line gets the alias substitution, is handed to the external parser
`parse`, and the result is appended when the duck-typed transaction
check accepts it.  `Except.error` models a rejected parse (a thrown
error), whose line is skipped.  The per-line awaits are modelled
sequentially; the source dispatches them without awaiting, which can
only permute the append order. -/
def parseFilesM (parse : Str → Except Unit RawResult) (dateParse : Str → Option Int)
    (accounts : List (Str × Str)) (j : List JournalEntry) (lines : List Str) :
    List JournalEntry :=
  lines.foldl (fun acc line =>
    match parse (applyAliases accounts line) with
    | Except.error _ => acc
    | Except.ok r => if isTransactionResult r then addEntry dateParse acc r else acc) j

/-- The journal entry a single line contributes under `parseFiles`:
`none` when the parse is rejected or the result carries no `links`
attribute. -/
def lineContribution (parse : Str → Except Unit RawResult) (dateParse : Str → Option Int)
    (accounts : List (Str × Str)) (line : Str) : Option JournalEntry :=
  match parse (applyAliases accounts line) with
  | Except.error _ => none
  | Except.ok r =>
    match r.links with
    | some _ => some (mkJournalEntry dateParse r)
    | none => none

/-- A line whose processing fails: the external parse is rejected
outright or returns a result without a `links` attribute. -/
def RejectedLine (parse : Str → Except Unit RawResult) (accounts : List (Str × Str))
    (line : Str) : Prop :=
  (∃ er, parse (applyAliases accounts line) = Except.error er) ∨
  (∃ r, parse (applyAliases accounts line) = Except.ok r ∧ r.links = none)

theorem dropWhile_idem (p : Char → Bool) (l : Str) :
    (l.dropWhile p).dropWhile p = l.dropWhile p := by
  induction l with
  | nil => rfl
  | cons c cs ih =>
    by_cases h : p c = true
    · simp [List.dropWhile_cons, h, ih]
    · simp [List.dropWhile_cons, h]

theorem dropWhile_shape (p : Char → Bool) (l : Str) :
    l.dropWhile p = [] ∨ ∃ c cs, l.dropWhile p = c :: cs ∧ p c = false := by
  induction l with
  | nil => exact Or.inl rfl
  | cons c cs ih =>
    by_cases h : p c = true
    · simpa [List.dropWhile_cons, h] using ih
    · exact Or.inr ⟨c, cs, by simp [List.dropWhile_cons, h], by simpa using h⟩

theorem trimRight_cons_of_not_space (c : Char) (cs : Str) (h : jsSpace c = false) :
    trimRight (c :: cs) = c :: trimRight cs := by
  simp only [trimRight]
  exact if_neg (fun hx => absurd hx.2 (by simp [h]))

theorem trimRight_cons_of_ne (c : Char) (cs : Str) (h : trimRight cs ≠ []) :
    trimRight (c :: cs) = c :: trimRight cs := by
  simp only [trimRight]
  exact if_neg (fun hx => h hx.1)

theorem trimRight_idem : ∀ l : Str, trimRight (trimRight l) = trimRight l
  | [] => rfl
  | c :: cs => by
    by_cases h : trimRight cs = [] ∧ jsSpace c = true
    · have h1 : trimRight (c :: cs) = [] := by
        simp only [trimRight]; exact if_pos h
      rw [h1]; rfl
    · have h1 : trimRight (c :: cs) = c :: trimRight cs := by
        simp only [trimRight]; exact if_neg h
      rw [h1]
      have h2 : ¬ (trimRight (trimRight cs) = [] ∧ jsSpace c = true) := by
        rw [trimRight_idem cs]; exact h
      simp only [trimRight]
      rw [if_neg h2, trimRight_idem cs]

theorem trim_idem (l : Str) : trimChars (trimChars l) = trimChars l := by
  unfold trimChars
  rcases dropWhile_shape jsSpace l with h | ⟨c, cs, h, hc⟩
  · rw [h]; rfl
  · rw [h, trimRight_cons_of_not_space c cs hc,
        List.dropWhile_cons_of_neg (by rw [hc]; exact Bool.false_ne_true),
        trimRight_cons_of_not_space c _ hc, trimRight_idem]

theorem hasGt_iff (l : Str) : hasGt l = true ↔ '>' ∈ l := by
  induction l with
  | nil => simp [hasGt]
  | cons c cs ih =>
    simp only [hasGt, Bool.or_eq_true, decide_eq_true_eq, ih, List.mem_cons]
    exact or_congr ⟨Eq.symm, Eq.symm⟩ Iff.rfl

theorem matchDate_some_iff (l r : Str) :
    matchDate l = some r ↔ ∃ d, DateToken d ∧ l = d ++ r := by
  constructor
  · intro h
    unfold matchDate at h
    split at h
    · rename_i y1 y2 y3 y4 h1 m1 m2 h2 d1 d2 rest
      split at h
      · rename_i hc
        simp only [Bool.and_eq_true, decide_eq_true_eq] at hc
        obtain ⟨⟨⟨⟨⟨⟨⟨⟨⟨c1, c2⟩, c3⟩, c4⟩, c5⟩, c6⟩, c7⟩, c8⟩, c9⟩, c10⟩ := hc
        subst c5; subst c8
        obtain rfl : rest = r := by simpa using h
        exact ⟨[y1, y2, y3, y4, '-', m1, m2, '-', d1, d2],
          ⟨y1, y2, y3, y4, m1, m2, d1, d2, rfl, c1, c2, c3, c4, c6, c7, c9, c10⟩,
          by simp⟩
      · exact absurd h (by simp)
    · exact absurd h (by simp)
  · rintro ⟨d, ⟨y1, y2, y3, y4, o1, o2, e1, e2, rfl, hy1, hy2, hy3, hy4, ho1, ho2, he1, he2⟩, rfl⟩
    simp [matchDate, hy1, hy2, hy3, hy4, ho1, ho2, he1, he2]

theorem lineMatches_iff (l : Str) : lineMatches l = true ↔ CandidateShape l := by
  unfold lineMatches CandidateShape
  cases hdw : l.dropWhile jsSpace with
  | nil => simp
  | cons m rest0 =>
    cases rest0 with
    | nil => simp
    | cons s rest =>
      constructor
      · intro h
        simp only [Bool.and_eq_true, Bool.or_eq_true, decide_eq_true_eq] at h
        obtain ⟨⟨hm, hs⟩, hrest⟩ := h
        cases hmd : matchDate rest with
        | none => rw [hmd] at hrest; exact absurd hrest (by simp)
        | some r =>
          rw [hmd] at hrest
          obtain ⟨d, hd, rfl⟩ := (matchDate_some_iff rest r).mp hmd
          exact ⟨m, s, d, r, rfl, hm, hs, hd, (hasGt_iff r).mp hrest⟩
      · rintro ⟨m2, s2, d, r, heq, hm, hs, hd, hr⟩
        obtain ⟨rfl, rfl, rfl⟩ : m2 = m ∧ s2 = s ∧ rest = d ++ r := by
          injection heq with h1a h1b
          injection h1b with h1c h1d
          exact ⟨h1a.symm, h1c.symm, h1d⟩
        have hmd : matchDate (d ++ r) = some r := (matchDate_some_iff _ _).mpr ⟨d, hd, rfl⟩
        rcases hm with rfl | rfl <;> simp [hs, hmd, (hasGt_iff r).mpr hr]

theorem filterMarkdownLoop_eq (ls : List Str) :
    filterMarkdownLoop ls = (ls.filter lineMatches).map cleanLine := by
  induction ls with
  | nil => rfl
  | cons l t ih =>
    by_cases h : lineMatches l = true
    · simp [filterMarkdownLoop, List.filter_cons, h, ih]
    · simp only [Bool.not_eq_true] at h
      simp [filterMarkdownLoop, List.filter_cons, h, ih]

theorem jsSpace_of_marker (c : Char) (h : c = '-' ∨ c = '*') : jsSpace c = false := by
  rcases h with rfl | rfl <;> decide

theorem jsSpace_of_digit (c : Char) (h : c.isDigit = true) : jsSpace c = false := by
  cases hjs : jsSpace c
  · rfl
  · exfalso
    have hmem : c = ' ' ∨ c = '\t' ∨ c = '\n' ∨ c = '\r' ∨
        c = Char.ofNat 11 ∨ c = Char.ofNat 12 ∨ c = Char.ofNat 160 := by
      simpa [jsSpace, or_assoc] using hjs
    rcases hmem with rfl | rfl | rfl | rfl | rfl | rfl | rfl <;>
      exact absurd h (by decide)

theorem cleanLine_head_of_matches (l : Str) (h : lineMatches l = true) :
    (cleanLine l).head? ≠ some '-' := by
  obtain ⟨m, s, d, r, hdw, hm, hs, hd, _⟩ := (lineMatches_iff l).mp h
  obtain ⟨y1, y2, y3, y4, o1, o2, e1, e2, rfl, hy1, _⟩ := hd
  have hmns : jsSpace m = false := jsSpace_of_marker m hm
  have hy1ns : jsSpace y1 = false := jsSpace_of_digit y1 hy1
  have htr_tail : trimRight ([y1, y2, y3, y4, '-', o1, o2, '-', e1, e2] ++ r) =
      y1 :: trimRight ([y2, y3, y4, '-', o1, o2, '-', e1, e2] ++ r) := by
    rw [List.cons_append]
    exact trimRight_cons_of_not_space _ _ hy1ns
  have htail_ne : trimRight ([y1, y2, y3, y4, '-', o1, o2, '-', e1, e2] ++ r) ≠ [] := by
    rw [htr_tail]; exact List.cons_ne_nil _ _
  have hsr : trimRight (s :: ([y1, y2, y3, y4, '-', o1, o2, '-', e1, e2] ++ r)) =
      s :: trimRight ([y1, y2, y3, y4, '-', o1, o2, '-', e1, e2] ++ r) :=
    trimRight_cons_of_ne _ _ htail_ne
  have htrim : trimChars l =
      m :: s :: trimRight ([y1, y2, y3, y4, '-', o1, o2, '-', e1, e2] ++ r) := by
    unfold trimChars
    rw [hdw, trimRight_cons_of_not_space _ _ hmns, hsr]
  rcases hm with rfl | rfl
  · -- hyphen marker: it is removed and the head becomes the first date digit
    unfold cleanLine
    rw [htrim]
    have hsd : stripDash ('-' :: s :: trimRight ([y1, y2, y3, y4, '-', o1, o2, '-', e1, e2] ++ r)) =
        s :: trimRight ([y1, y2, y3, y4, '-', o1, o2, '-', e1, e2] ++ r) := by
      simp [stripDash]
    rw [hsd]
    unfold trimChars
    rw [List.dropWhile_cons_of_pos hs, htr_tail,
        List.dropWhile_cons_of_neg (by rw [hy1ns]; exact Bool.false_ne_true),
        trimRight_cons_of_not_space _ _ hy1ns, trimRight_idem]
    intro hc
    simp only [List.head?_cons, Option.some.injEq] at hc
    rw [hc] at hy1
    exact absurd hy1 (by decide)
  · -- asterisk marker: it is kept, the head stays an asterisk
    unfold cleanLine
    rw [htrim]
    have hsd : stripDash ('*' :: s :: trimRight ([y1, y2, y3, y4, '-', o1, o2, '-', e1, e2] ++ r)) =
        '*' :: s :: trimRight ([y1, y2, y3, y4, '-', o1, o2, '-', e1, e2] ++ r) := by
      simp [stripDash]
    rw [hsd]
    unfold trimChars
    have hstar : jsSpace '*' = false := by decide
    rw [List.dropWhile_cons_of_neg (by rw [hstar]; exact Bool.false_ne_true),
        trimRight_cons_of_not_space _ _ hstar]
    simp

example : filterMarkdown "- 2023-04-01 Coffee Shop > food: 150".toList =
    ["2023-04-01 Coffee Shop > food: 150".toList] := by decide

example : filterMarkdown "* 2023-04-01 x > y".toList =
    ["* 2023-04-01 x > y".toList] := by decide

example : filterMarkdown "-  2023-04-01 x > y".toList = [] := by decide

example : filterMarkdown "hello\n  - 2023-01-02 a > b \nworld".toList =
    ["2023-01-02 a > b".toList] := by decide

/-- C1 (corrected).  The Line Extractor includes a physical line iff,
after stripping leading whitespace, it starts with a list marker
(`-` or `*`) followed by a whitespace character and a `YYYY-MM-DD`
date token and contains a `>` delimiter after that point; every output
line is the trimmed input line with a single leading `-` list marker
(when present) removed, so no output line starts with `-`, and output
is in original file order.  An `*` list marker is not removed: the
cleanup only strips a leading hyphen, so a line whose marker is `*`
keeps it. -/
theorem c1_extractor_amended (md : Str) :
    (∀ l, lineMatches l = true ↔ CandidateShape l) ∧
    filterMarkdown md = ((splitLines md).filter lineMatches).map cleanLine ∧
    (∀ out, out ∈ filterMarkdown md → out.head? ≠ some '-' ∧ trimChars out = out) := by
  refine ⟨lineMatches_iff, filterMarkdownLoop_eq _, ?_⟩
  intro out hmem
  rw [filterMarkdown, filterMarkdownLoop_eq] at hmem
  obtain ⟨l, hl, rfl⟩ := List.mem_map.mp hmem
  have hlm : lineMatches l = true := (List.mem_filter.mp hl).2
  exact ⟨cleanLine_head_of_matches l hlm, trim_idem _⟩

/-- Witness for C1: a concrete matching markdown line whose output is
trimmed and does not start with a hyphen. -/
theorem c1_extractor_amended_witness :
    ("2023-04-01 Coffee Shop > food: 150".toList).head? ≠ some '-' ∧
    trimChars "2023-04-01 Coffee Shop > food: 150".toList =
      "2023-04-01 Coffee Shop > food: 150".toList :=
  (c1_extractor_amended "- 2023-04-01 Coffee Shop > food: 150".toList).2.2
    "2023-04-01 Coffee Shop > food: 150".toList (by decide)

/-- Counterexample to C1 as stated: a line with an `*` list marker is
extracted, but its output still begins with the list-marker character
`*`, so not every output line has its list marker removed. -/
theorem c1_extractor_counterexample :
    filterMarkdown "* 2023-04-01 x > y".toList = ["* 2023-04-01 x > y".toList] ∧
    ("* 2023-04-01 x > y".toList).head? = some '*' :=
  ⟨by decide, rfl⟩

theorem replaceAlias_nil (key val : Str) (pw : Bool) : replaceAlias key val pw [] = [] := by
  rw [replaceAlias]

theorem replaceAlias_cons_true (key val : Str) (c : Char) (cs : Str) :
    replaceAlias key val true (c :: cs) = c :: replaceAlias key val (isWordChar c) cs := by
  rw [replaceAlias]
  simp

theorem replaceAlias_cons_false_some (key val : Str) (c : Char) (cs : Str)
    (h : (matchPre (key ++ [':']) (c :: cs)).isSome = true) :
    replaceAlias key val false (c :: cs) =
      val ++ ':' :: replaceAlias key val false (cs.drop key.length) := by
  rw [replaceAlias]
  simp [h]

theorem replaceAlias_cons_false_none (key val : Str) (c : Char) (cs : Str)
    (h : (matchPre (key ++ [':']) (c :: cs)).isSome = false) :
    replaceAlias key val false (c :: cs) = c :: replaceAlias key val (isWordChar c) cs := by
  rw [replaceAlias]
  simp [h]

theorem firstOccAux_cons_true (key : Str) (c : Char) (cs : Str) :
    firstOccAux key true (c :: cs) =
      (firstOccAux key (isWordChar c) cs).map (fun p => (c :: p.1, p.2)) := rfl

theorem firstOccAux_cons_false (key : Str) (c : Char) (cs : Str) :
    firstOccAux key false (c :: cs) =
      (match matchPre (key ++ [':']) (c :: cs) with
       | some rest => some ([], rest)
       | none => (firstOccAux key (isWordChar c) cs).map (fun p => (c :: p.1, p.2))) := rfl

theorem matchPre_some_iff : ∀ (p l r : Str), matchPre p l = some r ↔ l = p ++ r := by
  intro p
  induction p with
  | nil => intro l r; simp [matchPre]
  | cons x ps ih =>
    intro l r
    cases l with
    | nil => simp [matchPre]
    | cons c cs =>
      by_cases hc : c = x
      · subst hc; simp [matchPre, ih]
      · simp [matchPre, hc, Ne.symm hc]

theorem occAt_nil_iff (key : Str) (pw : Bool) (l b : Str) :
    OccAt key pw l [] b ↔ l = key ++ ':' :: b ∧ pw = false := by
  simp [OccAt, lastIsWord]

theorem occAt_cons_iff (key : Str) (pw : Bool) (c : Char) (cs a b : Str) :
    OccAt key pw (c :: cs) (c :: a) b ↔ OccAt key (isWordChar c) cs a b := by
  simp [OccAt, lastIsWord]

theorem occAt_cons_shape (key : Str) (pw : Bool) (c c2 : Char) (cs a2 b : Str)
    (h : OccAt key pw (c :: cs) (c2 :: a2) b) : c2 = c := by
  obtain ⟨heq, _⟩ := h
  rw [List.cons_append, List.cons_append] at heq
  injection heq with h1 _
  exact h1.symm

theorem firstOccAux_none_iff (key : Str) :
    ∀ (l : Str) (pw : Bool), firstOccAux key pw l = none ↔ ∀ a b, ¬ OccAt key pw l a b := by
  intro l
  induction l with
  | nil =>
    intro pw
    constructor
    · intro _ a b hocc
      obtain ⟨heq, _⟩ := hocc
      exact absurd heq.symm (by simp)
    · intro _; rfl
  | cons c cs ih =>
    intro pw
    cases pw with
    | true =>
      rw [firstOccAux_cons_true, Option.map_eq_none', ih (isWordChar c)]
      constructor
      · intro h a b hocc
        cases a with
        | nil =>
          obtain ⟨_, hlw⟩ := hocc
          simp [lastIsWord] at hlw
        | cons c2 a2 =>
          have hc2 : c2 = c := occAt_cons_shape key true c c2 cs a2 b hocc
          rw [hc2] at hocc
          exact h a2 b ((occAt_cons_iff key true c cs a2 b).mp hocc)
      · intro h a b hocc
        exact h (c :: a) b ((occAt_cons_iff key true c cs a b).mpr hocc)
    | false =>
      rw [firstOccAux_cons_false]
      cases hmp : matchPre (key ++ [':']) (c :: cs) with
      | some rest =>
        have hocc0 : OccAt key false (c :: cs) [] rest := by
          refine ⟨?_, by simp [lastIsWord]⟩
          have := (matchPre_some_iff (key ++ [':']) (c :: cs) rest).mp hmp
          simpa [List.append_assoc] using this
        constructor
        · intro h; exact absurd h (by simp)
        · intro h; exact absurd hocc0 (h [] rest)
      | none =>
        rw [Option.map_eq_none', ih (isWordChar c)]
        constructor
        · intro h a b hocc
          cases a with
          | nil =>
            obtain ⟨heq, _⟩ := (occAt_nil_iff key false (c :: cs) b).mp hocc
            have : matchPre (key ++ [':']) (c :: cs) = some b :=
              (matchPre_some_iff (key ++ [':']) (c :: cs) b).mpr
                (by simpa [List.append_assoc] using heq)
            rw [hmp] at this
            exact absurd this (by simp)
          | cons c2 a2 =>
            have hc2 : c2 = c := occAt_cons_shape key false c c2 cs a2 b hocc
            rw [hc2] at hocc
            exact h a2 b ((occAt_cons_iff key false c cs a2 b).mp hocc)
        · intro h a b hocc
          exact h (c :: a) b ((occAt_cons_iff key false c cs a b).mpr hocc)

theorem firstOccAux_some_spec (key : Str) :
    ∀ (l : Str) (pw : Bool) (a b : Str), firstOccAux key pw l = some (a, b) →
      OccAt key pw l a b ∧ ∀ a2 b2, OccAt key pw l a2 b2 → a.length ≤ a2.length := by
  intro l
  induction l with
  | nil => intro pw a b h; exact absurd h (by simp [firstOccAux])
  | cons c cs ih =>
    intro pw a b h
    cases pw with
    | true =>
      rw [firstOccAux_cons_true] at h
      obtain ⟨⟨a1, b1⟩, hfo, heq⟩ := Option.map_eq_some'.mp h
      simp only [Prod.mk.injEq] at heq
      obtain ⟨h1, h2⟩ := heq
      subst h1; subst h2
      obtain ⟨hocc, hmin⟩ := ih (isWordChar c) a1 b1 hfo
      refine ⟨(occAt_cons_iff key true c cs a1 b1).mpr hocc, ?_⟩
      intro a2 b2 hocc2
      cases a2 with
      | nil =>
        obtain ⟨_, hlw⟩ := hocc2
        simp [lastIsWord] at hlw
      | cons c2 a2t =>
        have hc2 : c2 = c := occAt_cons_shape key true c c2 cs a2t b2 hocc2
        rw [hc2] at hocc2
        have := hmin a2t b2 ((occAt_cons_iff key true c cs a2t b2).mp hocc2)
        simp only [List.length_cons]
        omega
    | false =>
      rw [firstOccAux_cons_false] at h
      cases hmp : matchPre (key ++ [':']) (c :: cs) with
      | some rest =>
        rw [hmp] at h
        simp only [Option.some.injEq, Prod.mk.injEq] at h
        obtain ⟨h1, h2⟩ := h
        subst h1; subst h2
        constructor
        · refine ⟨?_, by simp [lastIsWord]⟩
          have := (matchPre_some_iff (key ++ [':']) (c :: cs) rest).mp hmp
          simpa [List.append_assoc] using this
        · intro a2 b2 _
          simp
      | none =>
        rw [hmp] at h
        obtain ⟨⟨a1, b1⟩, hfo, heq⟩ := Option.map_eq_some'.mp h
        simp only [Prod.mk.injEq] at heq
        obtain ⟨h1, h2⟩ := heq
        subst h1; subst h2
        obtain ⟨hocc, hmin⟩ := ih (isWordChar c) a1 b1 hfo
        refine ⟨(occAt_cons_iff key false c cs a1 b1).mpr hocc, ?_⟩
        intro a2 b2 hocc2
        cases a2 with
        | nil =>
          obtain ⟨heq2, _⟩ := (occAt_nil_iff key false (c :: cs) b2).mp hocc2
          have : matchPre (key ++ [':']) (c :: cs) = some b2 :=
            (matchPre_some_iff (key ++ [':']) (c :: cs) b2).mpr
              (by simpa [List.append_assoc] using heq2)
          rw [hmp] at this
          exact absurd this (by simp)
        | cons c2 a2t =>
          have hc2 : c2 = c := occAt_cons_shape key false c c2 cs a2t b2 hocc2
          rw [hc2] at hocc2
          have := hmin a2t b2 ((occAt_cons_iff key false c cs a2t b2).mp hocc2)
          simp only [List.length_cons]
          omega

theorem matchPre_rest_eq (p l r : Str) (h : matchPre p l = some r) :
    r = l.drop p.length := by
  have hl := (matchPre_some_iff p l r).mp h
  subst hl
  rw [List.drop_left]

theorem replaceAlias_firstOcc (key val : Str) :
    ∀ (n : Nat) (l : Str) (pw : Bool), l.length ≤ n →
      replaceAlias key val pw l =
        (match firstOccAux key pw l with
         | none => l
         | some (a, b) => a ++ val ++ ':' :: replaceAlias key val false b) := by
  intro n
  induction n with
  | zero =>
    intro l pw hl
    obtain rfl : l = [] := List.length_eq_zero.mp (Nat.le_zero.mp hl)
    simp [replaceAlias_nil, firstOccAux]
  | succ n ih =>
    intro l pw hl
    cases l with
    | nil => simp [replaceAlias_nil, firstOccAux]
    | cons c cs =>
      have hcs : cs.length ≤ n := by
        simp only [List.length_cons] at hl
        omega
      cases pw with
      | true =>
        rw [firstOccAux_cons_true, replaceAlias_cons_true,
            ih cs (isWordChar c) hcs]
        cases hfo : firstOccAux key (isWordChar c) cs with
        | none => simp
        | some p =>
          obtain ⟨a1, b1⟩ := p
          simp
      | false =>
        cases hmp : matchPre (key ++ [':']) (c :: cs) with
        | some rest =>
          have hrest : rest = cs.drop key.length := by
            have := matchPre_rest_eq (key ++ [':']) (c :: cs) rest hmp
            simpa using this
          rw [replaceAlias_cons_false_some key val c cs (by simp [hmp]),
              firstOccAux_cons_false, hmp, ← hrest]
          simp
        | none =>
          rw [replaceAlias_cons_false_none key val c cs (by simp [hmp]),
              firstOccAux_cons_false, hmp, ih cs (isWordChar c) hcs]
          cases hfo : firstOccAux key (isWordChar c) cs with
          | none => simp
          | some p =>
            obtain ⟨a1, b1⟩ := p
            simp

/-- C2 (confirmed).  Before a line is forwarded to the external
parser, each alias key's global replacement rewrites exactly the
word-boundary occurrences of the token made of the key and a colon
into the full account path and a colon: the replacement is the
leftmost-occurrence recursion over the line (first conjunct), a line
with no word-boundary occurrence is left unchanged (second conjunct),
and the occurrence found is a genuine leftmost word-boundary
occurrence (third conjunct).  On the spec's example mapping,
a line containing the token of `food:` is rewritten to
`Expenses:Needs:Food:` while a line containing `foodie:` is left
unchanged.  The hypotheses pin the modelling domain: a nonempty alias
key of word characters and a replacement path without a dollar
character. -/
theorem c2_alias_substitution (key val : Str)
    (hkey : key ≠ [] ∧ key.all isWordChar = true ∧ '$' ∉ val) :
    (∀ pw l, replaceAlias key val pw l =
      (match firstOccAux key pw l with
       | none => l
       | some (a, b) => a ++ val ++ ':' :: replaceAlias key val false b)) ∧
    (∀ pw l, firstOccAux key pw l = none ↔ ∀ a b, ¬ OccAt key pw l a b) ∧
    (∀ pw l a b, firstOccAux key pw l = some (a, b) →
      OccAt key pw l a b ∧ ∀ a2 b2, OccAt key pw l a2 b2 → a.length ≤ a2.length) ∧
    applyAliases [("food".toList, "Expenses:Needs:Food".toList)]
      "2023-04-01 Coffee Shop > food: 200".toList =
      "2023-04-01 Coffee Shop > Expenses:Needs:Food: 200".toList ∧
    applyAliases [("food".toList, "Expenses:Needs:Food".toList)]
      "2023-04-01 Coffee Shop > foodie: 200".toList =
      "2023-04-01 Coffee Shop > foodie: 200".toList := by
  refine ⟨fun pw l => replaceAlias_firstOcc key val l.length l pw le_rfl,
    fun pw l => firstOccAux_none_iff key l pw,
    fun pw l a b => firstOccAux_some_spec key l pw a b, ?_, ?_⟩
  · have e1 : applyAliases [("food".toList, "Expenses:Needs:Food".toList)]
        "2023-04-01 Coffee Shop > food: 200".toList =
        replaceAlias "food".toList "Expenses:Needs:Food".toList false
          "2023-04-01 Coffee Shop > food: 200".toList := rfl
    have h1 : firstOccAux "food".toList false "2023-04-01 Coffee Shop > food: 200".toList =
        some ("2023-04-01 Coffee Shop > ".toList, " 200".toList) := by decide
    have h2 : firstOccAux "food".toList false " 200".toList = none := by decide
    have hrw : replaceAlias "food".toList "Expenses:Needs:Food".toList false
        " 200".toList = " 200".toList := by
      rw [replaceAlias_firstOcc _ _ (" 200".toList).length _ false le_rfl, h2]
    rw [e1, replaceAlias_firstOcc _ _ _ _ false le_rfl, h1]
    simp only [hrw]
    decide
  · have e1 : applyAliases [("food".toList, "Expenses:Needs:Food".toList)]
        "2023-04-01 Coffee Shop > foodie: 200".toList =
        replaceAlias "food".toList "Expenses:Needs:Food".toList false
          "2023-04-01 Coffee Shop > foodie: 200".toList := rfl
    have h1 : firstOccAux "food".toList false
        "2023-04-01 Coffee Shop > foodie: 200".toList = none := by decide
    rw [e1, replaceAlias_firstOcc _ _ _ _ false le_rfl, h1]

/-- Witness for C2: the word-boundary check on the concrete foodie
line, with the hypotheses discharged on the concrete mapping. -/
theorem c2_alias_substitution_witness :
    applyAliases [("food".toList, "Expenses:Needs:Food".toList)]
      "2023-04-01 Coffee Shop > foodie: 200".toList =
      "2023-04-01 Coffee Shop > foodie: 200".toList :=
  (c2_alias_substitution "food".toList "Expenses:Needs:Food".toList
    ⟨by decide, by decide, by decide⟩).2.2.2.2

theorem foldl_append_eq_flatten (g : JournalEntry → Str) :
    ∀ (l : List JournalEntry) (acc : Str),
      l.foldl (fun acc x => acc ++ g x) acc = acc ++ (l.map g).flatten := by
  intro l
  induction l with
  | nil => intro acc; simp
  | cons x xs ih =>
    intro acc
    simp only [List.foldl_cons, List.map_cons, List.flatten_cons]
    rw [ih, List.append_assoc]

theorem exportEntries_eq_flatten (j : List JournalEntry) (s e : Option Int) :
    exportEntries j s e =
      (j.map (fun en =>
        if dateLe s en.date && dateLe en.date e
        then en.beancount ++ ['\n', '\n'] else [])).flatten := by
  have hfun : (fun (acc : Str) (entry : JournalEntry) =>
      if dateLe s entry.date && dateLe entry.date e
      then acc ++ entry.beancount ++ ['\n', '\n'] else acc) =
      (fun (acc : Str) (entry : JournalEntry) =>
        acc ++ (if dateLe s entry.date && dateLe entry.date e
                then entry.beancount ++ ['\n', '\n'] else [])) := by
    funext acc entry
    by_cases h : (dateLe s entry.date && dateLe entry.date e) = true
    · rw [if_pos h, if_pos h, List.append_assoc]
    · rw [if_neg h, if_neg h, List.append_nil]
  rw [exportEntries, hfun, foldl_append_eq_flatten, List.nil_append]

theorem exportEntries_cons (en : JournalEntry) (j : List JournalEntry) (s e : Option Int) :
    exportEntries (en :: j) s e =
      (if dateLe s en.date && dateLe en.date e
       then en.beancount ++ ['\n', '\n'] else []) ++ exportEntries j s e := by
  rw [exportEntries_eq_flatten, exportEntries_eq_flatten, List.map_cons, List.flatten_cons]

theorem exportEntries_append (j1 j2 : List JournalEntry) (s e : Option Int) :
    exportEntries (j1 ++ j2) s e = exportEntries j1 s e ++ exportEntries j2 s e := by
  rw [exportEntries_eq_flatten, exportEntries_eq_flatten, exportEntries_eq_flatten,
      List.map_append, List.flatten_append]

theorem dateLe_none_right (x : Option Int) : dateLe x none = false := by
  cases x <;> rfl

theorem dateLe_inRange (s e : Int) (en : JournalEntry) :
    (dateLe (some s) en.date && dateLe en.date (some e)) = inRangeIncl s e en := by
  cases h : en.date with
  | none => simp [dateLe, inRangeIncl, h]
  | some d => simp [dateLe, inRangeIncl, h]

theorem flatten_map_if_eq_filter (c : JournalEntry → Bool) (g : JournalEntry → Str) :
    ∀ j : List JournalEntry,
      (j.map (fun en => if c en then g en else [])).flatten = ((j.filter c).map g).flatten := by
  intro j
  induction j with
  | nil => rfl
  | cons en j ih =>
    simp only [List.map_cons, List.flatten_cons, List.filter_cons]
    by_cases h : c en = true
    · rw [if_pos h, if_pos h, List.map_cons, List.flatten_cons, ih]
    · rw [if_neg h, if_neg h, List.nil_append, ih]

theorem flatten_map_append_sep (sep : Str) :
    ∀ ts : List Str, ts ≠ [] →
      (ts.map (fun t => t ++ sep)).flatten = List.intercalate sep ts ++ sep := by
  intro ts
  induction ts with
  | nil => intro h; exact absurd rfl h
  | cons t ts ih =>
    intro _
    cases ts with
    | nil => simp [List.intercalate, List.intersperse]
    | cons t2 ts2 =>
      have h2 := ih (by simp)
      simp only [List.map_cons, List.flatten_cons] at h2 ⊢
      rw [h2]
      simp [List.intercalate, List.intersperse, List.append_assoc]

/-- C3 (confirmed).  For every journal state and pair of valid dates,
export includes an entry's rendered text iff the entry's date lies
between the bounds, both endpoints inclusive: the output is exactly
the concatenation over the entries passing the inclusive range test,
an entry dated inside or exactly on a bound passes the test, and an
entry dated strictly outside either bound fails it. -/
theorem c3_export_range (s e : Int) (j : List JournalEntry) :
    exportEntries j (some s) (some e) =
      ((j.filter (inRangeIncl s e)).map (fun en => en.beancount ++ ['\n', '\n'])).flatten ∧
    (∀ en, inRangeIncl s e en = true ↔ ∃ d, en.date = some d ∧ s ≤ d ∧ d ≤ e) ∧
    (∀ en d, en.date = some d → s ≤ d → d ≤ e → inRangeIncl s e en = true) ∧
    (∀ en d, en.date = some d → (d < s ∨ e < d) → inRangeIncl s e en = false) := by
  refine ⟨?_, ?_, ?_, ?_⟩
  · rw [exportEntries_eq_flatten]
    have hfun : (fun en : JournalEntry =>
        if dateLe (some s) en.date && dateLe en.date (some e)
        then en.beancount ++ ['\n', '\n'] else []) =
        (fun en => if inRangeIncl s e en then en.beancount ++ ['\n', '\n'] else []) := by
      funext en
      rw [dateLe_inRange]
    rw [hfun, flatten_map_if_eq_filter]
  · intro en
    cases h : en.date with
    | none => simp [inRangeIncl, h]
    | some d => simp [inRangeIncl, h]
  · intro en d hd hs he
    simp [inRangeIncl, hd, hs, he]
  · intro en d hd hor
    simp only [inRangeIncl, hd, decide_eq_false_iff_not, not_and, not_le]
    intro hsle
    omega

/-- Witness for C3: an entry dated exactly on the start bound passes
the range test and an entry one day past the end bound fails it. -/
theorem c3_export_range_witness :
    inRangeIncl 0 5 ⟨some 0, [], [], [], [], [], []⟩ = true ∧
    inRangeIncl 0 5 ⟨some 7, [], [], [], [], [], []⟩ = false :=
  ⟨(c3_export_range 0 5 []).2.2.1 _ 0 rfl (by decide) (by decide),
   (c3_export_range 0 5 []).2.2.2 _ 7 rfl (Or.inr (by decide))⟩

/-- C4 (confirmed).  Export concatenates the included entries'
rendered texts, in the journal's stored order, each followed by two
newlines; with no qualifying entry the result is empty, with exactly
one it is that entry's text followed by a trailing blank line, and in
general the texts are separated by a blank line with one trailing. -/
theorem c4_export_format (j : List JournalEntry) (s e : Option Int) :
    exportEntries j s e =
      (((j.filter (fun en => dateLe s en.date && dateLe en.date e)).map
          (fun en => en.beancount)).map (fun t => t ++ ['\n', '\n'])).flatten ∧
    ((j.filter (fun en => dateLe s en.date && dateLe en.date e)) = [] →
      exportEntries j s e = []) ∧
    (∀ t, (j.filter (fun en => dateLe s en.date && dateLe en.date e)).map
        (fun en => en.beancount) = [t] →
      exportEntries j s e = t ++ ['\n', '\n']) ∧
    (∀ ts, (j.filter (fun en => dateLe s en.date && dateLe en.date e)).map
        (fun en => en.beancount) = ts → ts ≠ [] →
      exportEntries j s e = List.intercalate ['\n', '\n'] ts ++ ['\n', '\n']) := by
  have h1 : exportEntries j s e =
      (((j.filter (fun en => dateLe s en.date && dateLe en.date e)).map
          (fun en => en.beancount)).map (fun t => t ++ ['\n', '\n'])).flatten := by
    rw [exportEntries_eq_flatten, flatten_map_if_eq_filter, List.map_map]
    rfl
  refine ⟨h1, ?_, ?_, ?_⟩
  · intro h
    rw [h1, h]
    rfl
  · intro t ht
    rw [h1, ht]
    simp
  · intro ts hts hne
    rw [h1, hts, flatten_map_append_sep ['\n', '\n'] ts hne]

/-- Witness for C4: the single-entry export is the entry's rendered
text followed by a blank line. -/
theorem c4_export_format_witness :
    exportEntries [⟨some 1, [], [], [], [], [], "x".toList⟩] (some 0) (some 2) =
      "x".toList ++ ['\n', '\n'] :=
  (c4_export_format [⟨some 1, [], [], [], [], [], "x".toList⟩] (some 0) (some 2)).2.2.1
    "x".toList (by decide)

theorem parseFilesM_eq (parse : Str → Except Unit RawResult) (dateParse : Str → Option Int)
    (accounts : List (Str × Str)) :
    ∀ (lines : List Str) (j : List JournalEntry),
      parseFilesM parse dateParse accounts j lines =
        j ++ lines.filterMap (lineContribution parse dateParse accounts) := by
  intro lines
  induction lines with
  | nil => intro j; simp [parseFilesM]
  | cons line rest ih =>
    intro j
    cases hp : parse (applyAliases accounts line) with
    | error er =>
      have hstep : parseFilesM parse dateParse accounts j (line :: rest) =
          parseFilesM parse dateParse accounts j rest := by
        simp only [parseFilesM, List.foldl_cons, hp]
      have hlc : lineContribution parse dateParse accounts line = none := by
        simp [lineContribution, hp]
      rw [hstep, ih j, List.filterMap_cons, hlc]
    | ok r =>
      cases hl : r.links with
      | none =>
        have ht : isTransactionResult r = false := by
          simp [isTransactionResult, hl]
        have hstep : parseFilesM parse dateParse accounts j (line :: rest) =
            parseFilesM parse dateParse accounts j rest := by
          simp only [parseFilesM, List.foldl_cons, hp, ht]
          simp
        have hlc : lineContribution parse dateParse accounts line = none := by
          simp [lineContribution, hp, hl]
        rw [hstep, ih j, List.filterMap_cons, hlc]
      | some ls =>
        have ht : isTransactionResult r = true := by
          simp [isTransactionResult, hl]
        have hstep : parseFilesM parse dateParse accounts j (line :: rest) =
            parseFilesM parse dateParse accounts (addEntry dateParse j r) rest := by
          simp only [parseFilesM, List.foldl_cons, hp, ht, if_true]
        have hlc : lineContribution parse dateParse accounts line =
            some (mkJournalEntry dateParse r) := by
          simp [lineContribution, hp, hl]
        rw [hstep, ih, addEntry, List.filterMap_cons, hlc]
        simp [List.append_assoc]

theorem lineContribution_rejected (parse : Str → Except Unit RawResult)
    (dateParse : Str → Option Int) (accounts : List (Str × Str)) (line : Str)
    (h : RejectedLine parse accounts line) :
    lineContribution parse dateParse accounts line = none := by
  rcases h with ⟨er, hp⟩ | ⟨r, hp, hl⟩
  · simp [lineContribution, hp]
  · simp [lineContribution, hp, hl]

/-- C5 (confirmed).  Ingestion appends a parser result iff it carries
a defined `links` attribute: the resulting journal is the old journal
followed, in input order, by exactly the entries of the lines whose
parse produced a result with `links` defined; rejected parses and
results without `links` contribute nothing, and removing such a line
from the input leaves the result of ingestion unchanged — the failure
stays local to its line and never surfaces. -/
theorem c5_ingest_policy (parse : Str → Except Unit RawResult) (dateParse : Str → Option Int)
    (accounts : List (Str × Str)) (j : List JournalEntry) (lines : List Str) :
    parseFilesM parse dateParse accounts j lines =
      j ++ lines.filterMap (lineContribution parse dateParse accounts) ∧
    (∀ line, (lineContribution parse dateParse accounts line).isSome = true ↔
      ∃ r ls, parse (applyAliases accounts line) = Except.ok r ∧ r.links = some ls) ∧
    (∀ pre bad post, RejectedLine parse accounts bad →
      parseFilesM parse dateParse accounts j (pre ++ bad :: post) =
        parseFilesM parse dateParse accounts j (pre ++ post)) := by
  refine ⟨parseFilesM_eq parse dateParse accounts lines j, ?_, ?_⟩
  · intro line
    cases hp : parse (applyAliases accounts line) with
    | error er => simp [lineContribution, hp]
    | ok r =>
      cases hl : r.links with
      | none => simp [lineContribution, hp, hl]
      | some ls =>
        simp only [lineContribution, hp, hl, Option.isSome_some, true_iff]
        exact ⟨r, ls, rfl, hl⟩
  · intro pre bad post h
    rw [parseFilesM_eq, parseFilesM_eq, List.filterMap_append, List.filterMap_append,
        List.filterMap_cons, lineContribution_rejected parse dateParse accounts bad h]

/-- Witness for C5: removing a line whose parse is rejected leaves
ingestion unchanged, on a concrete always-rejecting parser. -/
theorem c5_ingest_policy_witness :
    parseFilesM (fun _ => Except.error ()) (fun _ => none) [] []
      (["a".toList] ++ "b".toList :: []) =
      parseFilesM (fun _ => Except.error ()) (fun _ => none) [] [] (["a".toList] ++ []) :=
  (c5_ingest_policy (fun _ => Except.error ()) (fun _ => none) [] [] []).2.2
    ["a".toList] "b".toList [] (Or.inl ⟨(), rfl⟩)

/-- C6 (confirmed).  The entry built from an accepted transaction
result carries the postings verbatim: the transaction list equals the
result's `data` list, so the multiset of account/amount pairs is
unchanged in value and sign. -/
theorem c6_postings_verbatim (dateParse : Str → Option Int) (r : RawResult) :
    (mkJournalEntry dateParse r).transactions = r.data ∧
    (((mkJournalEntry dateParse r).transactions.map (fun t => (t.account, t.amount)) :
        List (Str × Int)) : Multiset (Str × Int)) =
      ((r.data.map (fun t => (t.account, t.amount)) : List (Str × Int)) :
        Multiset (Str × Int)) := by
  have h : (mkJournalEntry dateParse r).transactions = r.data := by
    show r.data.map
        (fun item => ({ account := item.account, amount := item.amount } : Transaction)) =
      r.data
    have hid : (fun item : Transaction =>
        ({ account := item.account, amount := item.amount } : Transaction)) = id := rfl
    rw [hid, List.map_id]
  exact ⟨h, by rw [h]⟩

/-- C7 (confirmed).  Flush clears the journal to empty, is idempotent,
and export of a flushed journal is the empty string for every
range. -/
theorem c7_reset_idempotent (j : List JournalEntry) :
    flushJournal j = [] ∧
    flushJournal (flushJournal j) = flushJournal j ∧
    (∀ s e, exportEntries (flushJournal j) s e = []) :=
  ⟨rfl, rfl, fun _ _ => rfl⟩

theorem exportMethod_fold_fst (s e : Option Int) :
    ∀ (j2 : List JournalEntry) (acc : List JournalEntry × Str),
      (j2.foldl (fun acc entry =>
        (acc.1, if dateLe s entry.date && dateLe entry.date e
                then acc.2 ++ entry.beancount ++ ['\n', '\n'] else acc.2)) acc).1 = acc.1 := by
  intro j2
  induction j2 with
  | nil => intro acc; rfl
  | cons en j2 ih =>
    intro acc
    rw [List.foldl_cons]
    exact ih _

theorem exportMethod_fold_snd (s e : Option Int) :
    ∀ (j2 : List JournalEntry) (acc : List JournalEntry × Str),
      (j2.foldl (fun acc entry =>
        (acc.1, if dateLe s entry.date && dateLe entry.date e
                then acc.2 ++ entry.beancount ++ ['\n', '\n'] else acc.2)) acc).2 =
      j2.foldl (fun acc2 entry =>
        if dateLe s entry.date && dateLe entry.date e
        then acc2 ++ entry.beancount ++ ['\n', '\n'] else acc2) acc.2 := by
  intro j2
  induction j2 with
  | nil => intro acc; rfl
  | cons en j2 ih =>
    intro acc
    rw [List.foldl_cons, List.foldl_cons]
    exact ih _

/-- C8 (confirmed).  Export is a read-only query: run as a state
transformer, its journal component is returned unchanged and its
output is the export string. -/
theorem c8_export_readonly (j : List JournalEntry) (s e : Option Int) :
    (exportMethod j s e).1 = j ∧ (exportMethod j s e).2 = exportEntries j s e := by
  constructor
  · exact exportMethod_fold_fst s e j (j, [])
  · rw [show (exportMethod j s e).2 = _ from exportMethod_fold_snd s e j (j, [])]
    rfl

/-- C9 (confirmed).  Alias substitution is the left fold of the
per-key global replacements over the working line in key order, not a
simultaneous substitution: with mapping `a` to `Assets:cash` and
`cash` to `Assets:Cash`, the text `Assets:cash:` introduced by the
first key's replacement is itself rewritten by the second key, so the
result differs from replacing only the occurrences present in the
original line. -/
theorem c9_fold_cascade (accounts : List (Str × Str)) (line : Str) :
    applyAliases accounts line =
      accounts.foldl (fun acc kv => replaceAlias kv.1 kv.2 false acc) line ∧
    applyAliases [("a".toList, "Assets:cash".toList), ("cash".toList, "Assets:Cash".toList)]
      "a: 100".toList = "Assets:Assets:Cash: 100".toList ∧
    applyAliases [("a".toList, "Assets:cash".toList), ("cash".toList, "Assets:Cash".toList)]
      "a: 100".toList ≠ "Assets:cash: 100".toList := by
  have e1 : applyAliases
      [("a".toList, "Assets:cash".toList), ("cash".toList, "Assets:Cash".toList)]
      "a: 100".toList =
      replaceAlias "cash".toList "Assets:Cash".toList false
        (replaceAlias "a".toList "Assets:cash".toList false "a: 100".toList) := rfl
  have h1 : firstOccAux "a".toList false "a: 100".toList = some ([], " 100".toList) := by
    decide
  have h2 : firstOccAux "a".toList false " 100".toList = none := by decide
  have hstep1 : replaceAlias "a".toList "Assets:cash".toList false "a: 100".toList =
      "Assets:cash: 100".toList := by
    have hr : replaceAlias "a".toList "Assets:cash".toList false " 100".toList =
        " 100".toList := by
      rw [replaceAlias_firstOcc _ _ (" 100".toList).length _ false le_rfl, h2]
    rw [replaceAlias_firstOcc _ _ ("a: 100".toList).length _ false le_rfl, h1]
    simp only [hr]
    decide
  have h3 : firstOccAux "cash".toList false "Assets:cash: 100".toList =
      some ("Assets:".toList, " 100".toList) := by decide
  have h4 : firstOccAux "cash".toList false " 100".toList = none := by decide
  have hstep2 : replaceAlias "cash".toList "Assets:Cash".toList false
      "Assets:cash: 100".toList = "Assets:Assets:Cash: 100".toList := by
    have hr : replaceAlias "cash".toList "Assets:Cash".toList false " 100".toList =
        " 100".toList := by
      rw [replaceAlias_firstOcc _ _ (" 100".toList).length _ false le_rfl, h4]
    rw [replaceAlias_firstOcc _ _ ("Assets:cash: 100".toList).length _ false le_rfl, h3]
    simp only [hr]
    decide
  have hcomp : applyAliases
      [("a".toList, "Assets:cash".toList), ("cash".toList, "Assets:Cash".toList)]
      "a: 100".toList = "Assets:Assets:Cash: 100".toList := by
    rw [e1, hstep1, hstep2]
  exact ⟨rfl, hcomp, by rw [hcomp]; decide⟩

/-- C10 (confirmed).  An accepted result whose date string does not
parse is still appended to the journal, but its entry is excluded from
every export, for all ranges: the Invalid Date satisfies no range
comparison. -/
theorem c10_invalid_date (dateParse : Str → Option Int) (r : RawResult)
    (h : dateParse r.date = none) (j1 j2 : List JournalEntry) (s e : Option Int) :
    addEntry dateParse j1 r = j1 ++ [mkJournalEntry dateParse r] ∧
    exportEntries (j1 ++ mkJournalEntry dateParse r :: j2) s e =
      exportEntries (j1 ++ j2) s e := by
  refine ⟨rfl, ?_⟩
  have hd : (mkJournalEntry dateParse r).date = none := h
  rw [exportEntries_append, exportEntries_cons, exportEntries_append, hd,
      dateLe_none_right]
  simp

/-- Witness for C10: a concrete unparseable-date entry is appended yet
invisible to a concrete export. -/
theorem c10_invalid_date_witness :
    addEntry (fun _ => none) [] ⟨"bad".toList, [], [], [], some [], "out".toList, []⟩ =
      [] ++ [mkJournalEntry (fun _ => none)
        ⟨"bad".toList, [], [], [], some [], "out".toList, []⟩] ∧
    exportEntries ([] ++ mkJournalEntry (fun _ => none)
        ⟨"bad".toList, [], [], [], some [], "out".toList, []⟩ :: []) (some 0) (some 5) =
      exportEntries ([] ++ []) (some 0) (some 5) :=
  c10_invalid_date (fun _ => none) ⟨"bad".toList, [], [], [], some [], "out".toList, []⟩
    rfl [] [] (some 0) (some 5)

/-- Witness for C9: the fold form of alias substitution at a concrete
input. -/
theorem c9_fold_cascade_witness :
    applyAliases [] "a: 100".toList =
      List.foldl (fun (acc : Str) (kv : Str × Str) => replaceAlias kv.1 kv.2 false acc)
        "a: 100".toList [] :=
  (c9_fold_cascade [] "a: 100".toList).1
